import Mathlib

/-!
Verification of the formix form-state engine.

The development shallowly embeds the engine's core logic:
* the path resolver `get`/`set` over nested objects and arrays
  (src/src/index.tsx, lines 42-67), modelled over an explicit heap of
  containers so that the in-place mutation performed by `set` is visible;
* the bounded undo/redo history manager `createUndoRedoManager`
  (src/src/index.tsx, lines 9-40);
* the engine operations `setState`, `setFieldValue`, `submit`, `undo`
  and the field/array-field operations (src/unnamed/part_000).

JavaScript numbers appearing as history indices or array indices are
modelled as `Nat` (the engine only ever produces non-negative indices;
`Math.max(0, _)` is truncated subtraction); machine-level float
behaviour is not relevant to any property proved here.
-/

set_option maxRecDepth 8192

namespace Formix

/-! ## JavaScript value model

A JS value is a primitive or a reference into a heap of containers
(objects with ordered string-keyed fields, or arrays).  The heap makes
aliasing and in-place mutation explicit: `set` mutates a container that
other roots (e.g. recorded history snapshots) may still reference.
-/

inductive JVal where
  | null
  | undefined
  | bool (b : Bool)
  | num (n : Int)
  | str (s : String)
  | ref (a : Nat)
deriving DecidableEq

inductive JObj where
  | obj (fields : List (String × JVal))
  | arr (elems : List JVal)
deriving DecidableEq

/-- The mutable store: address `a` holds container `h[a]`. -/
abbrev Heap := List JObj

/-- `String.prototype.split(sep)` for a one-character separator, on the
character list: `""` maps to `[""]`, consecutive separators produce
empty pieces — the JS behaviour. -/
def splitOnChar (sep : Char) : List Char → List (List Char)
  | [] => [[]]
  | c :: cs =>
    let r := splitOnChar sep cs
    if c = sep then [] :: r
    else
      match r with
      | piece :: rest => (c :: piece) :: rest
      | [] => [[c]]

/-- `path.split('.')` (src/src/index.tsx, lines 43 and 62). -/
def jsSplit (path : String) : List String :=
  (splitOnChar '.' path.data).map (fun cs => ⟨cs⟩)

/-- Mirrors the regular-expression test `/^\d+$/.test(key)` used by `get`:
at least one character, all decimal digits. -/
def isIndexKey (key : String) : Bool :=
  !key.data.isEmpty && key.data.all Char.isDigit

/-- `parseInt(key, 10)` on a key that passes `isIndexKey`: the decimal
value of the digit string. -/
def parseIndex (key : String) : Nat :=
  key.data.foldl (fun n c => n * 10 + (c.toNat - '0'.toNat)) 0

/-- JS property read on an object: `fields[key]`, `undefined` when absent. -/
def objGet (fields : List (String × JVal)) (key : String) : JVal :=
  match fields.lookup key with
  | some v => v
  | none => .undefined

/-- JS property write on an object: an existing key is overwritten in place
(insertion order preserved), a new key is appended. -/
def objSet : List (String × JVal) → String → JVal → List (String × JVal)
  | [], key, v => [(key, v)]
  | (k, w) :: fs, key, v =>
    if k = key then (key, v) :: fs else (k, w) :: objSet fs key v

/-- JS array element read: `elems[i]`, `undefined` out of range. -/
def arrGet (elems : List JVal) (i : Nat) : JVal :=
  (elems.get? i).getD .undefined

/-- JS array element write: in range overwrites, past the end extends the
array, the gap being filled with `undefined` (JS holes read back as
`undefined`). -/
def arrSet (elems : List JVal) (i : Nat) (v : JVal) : List JVal :=
  if i < elems.length then elems.set i v
  else elems ++ List.replicate (i - elems.length) .undefined ++ [v]

/-- One step of the loop body of `get` (src/src/index.tsx, lines 46-52):
`if (Array.isArray(result) && /^\d+$/.test(key)) result = result[parseInt(key, 10)]
else result = result[key]`.

Reading a property of `null`/`undefined` throws a TypeError, modelled as
`.error ()`.  Property reads on other primitives yield `undefined`
(strings additionally expose `length`).  A digit-string subscript on an
array is element access in JS whether or not the explicit
`Array.isArray` special case fires, so the same accessor also models the
plain `acc[key]` step used by `set`'s reduce. -/
def access (h : Heap) (v : JVal) (key : String) : Except Unit JVal :=
  match v with
  | .null => .error ()
  | .undefined => .error ()
  | .ref a =>
    match h.get? a with
    | some (.obj fields) => .ok (objGet fields key)
    | some (.arr elems) =>
      if isIndexKey key then .ok (arrGet elems (parseIndex key))
      else if key = "length" then .ok (.num elems.length)
      else .ok .undefined
    | none => .ok .undefined
  | .str s => if key = "length" then .ok (.num s.length) else .ok .undefined
  | .num _ => .ok .undefined
  | .bool _ => .ok .undefined

/-- The fold of `get` over the list of path segments. -/
def getPath (h : Heap) : JVal → List String → Except Unit JVal
  | v, [] => .ok v
  | v, key :: keys =>
    match access h v key with
    | .ok v' => getPath h v' keys
    | .error e => .error e

/-- `get(obj, path)` (src/src/index.tsx, lines 42-55): split the path on
dots and walk the segments left to right. -/
def getJs (h : Heap) (obj : JVal) (path : String) : Except Unit JVal :=
  getPath h obj (jsSplit path)

/-- The final assignment `target[lastKey] = value` of `set`: mutates the
container `target` points at, in place on the heap.  Assigning through
`null`/`undefined` or onto a primitive throws (strict mode).  Non-index
named properties on arrays are outside the model (no engine path writes
them) and are mapped to `.error ()`. -/
def assign (h : Heap) (target : JVal) (key : String) (value : JVal) :
    Except Unit Heap :=
  match target with
  | .ref a =>
    match h.get? a with
    | some (.obj fields) => .ok (h.set a (.obj (objSet fields key value)))
    | some (.arr elems) =>
      if isIndexKey key then
        .ok (h.set a (.arr (arrSet elems (parseIndex key) value)))
      else .error ()
    | none => .ok h
  | _ => .error ()

/-- `set(obj, path, value)` (src/src/index.tsx, lines 57-67): the empty
path returns `obj` unchanged; otherwise all but the last segment are
resolved by `keys.reduce((acc, key) => acc[key], obj)` and the last
segment is assigned in place on the resolved container, the (identical)
root being returned together with the mutated heap. -/
def setJs (h : Heap) (obj : JVal) (path : String) (value : JVal) :
    Except Unit (Heap × JVal) :=
  if path = "" then .ok (h, obj)
  else
    let keys := jsSplit path
    match keys.getLast? with
    | none => .ok (h, obj)
    | some lastKey =>
      match getPath h obj keys.dropLast with
      | .error e => .error e
      | .ok target =>
        match assign h target lastKey value with
        | .error e => .error e
        | .ok h' => .ok (h', obj)

/-- Whether `key` is a key `set`'s final assignment can give container
`o`: any key for an object, an index key for an array (the model keeps
arrays index-only). -/
def compatKey : JObj → String → Bool
  | .obj _, _ => true
  | .arr _, key => isIndexKey key

/-- Specification-side instrument expressing "valid path" for the
round-trip property: resolve a key chain from a root, requiring every
traversed node to be a heap reference, and record the addresses
dereferenced along the way.  It refines `getPath` (see
`getPath_of_walkAddrs`). -/
def walkAddrs (h : Heap) : JVal → List String → Except Unit (List Nat × JVal)
  | v, [] => .ok ([], v)
  | v, key :: keys =>
    match v with
    | .ref a =>
      match access h (.ref a) key with
      | .ok v' =>
        match walkAddrs h v' keys with
        | .ok (as, w) => .ok (a :: as, w)
        | .error e => .error e
      | .error e => .error e
    | _ => .error ()

/-- JS truthiness on the modelled values (`NaN` does not arise). -/
def jsFalsy : JVal → Bool
  | .null => true
  | .undefined => true
  | .bool b => !b
  | .num n => n == 0
  | .str s => s == ""
  | .ref _ => false

/-! ## Undo/redo history manager

`createUndoRedoManager` (src/src/index.tsx, lines 9-40).  The closure
state is the pair of the snapshot list and the current index; each
operation of the returned record becomes a function on that state.
-/

structure UndoRedoState (T : Type _) where
  history : List T
  currentIndex : Nat
deriving DecidableEq

/-- `Array.prototype.slice(-k)`: the last `k` elements — except that
`slice(-0)` is `slice(0)`, the whole array. -/
def jsSliceLast (k : Nat) (l : List α) : List α :=
  if k = 0 then l else l.drop (l.length - k)

/-- The initial closure state: `{ history: [initialState], currentIndex: 0 }`. -/
def urCreate (initialState : T) : UndoRedoState T :=
  ⟨[initialState], 0⟩

/-- `setState(newState)` (lines 15-23): truncate the redo branch with
`history.slice(0, currentIndex + 1)`, append `newState`, keep the last
`maxHistorySize` entries, and advance the index, clamped to
`maxHistorySize - 1`. -/
def urSetState (maxHistorySize : Nat) (newState : T) (s : UndoRedoState T) :
    UndoRedoState T :=
  { history := jsSliceLast maxHistorySize
      (s.history.take (s.currentIndex + 1) ++ [newState])
    currentIndex := min (s.currentIndex + 1) (maxHistorySize - 1) }

/-- The state effect of `undo(steps)` (lines 25-28):
`currentIndex = Math.max(0, currentIndex - steps)`. -/
def urUndoState (steps : Nat) (s : UndoRedoState T) : UndoRedoState T :=
  { s with currentIndex := s.currentIndex - steps }

/-- The entry at the current index, `state.history[state.currentIndex]`
(defined whenever the manager invariant holds). -/
def urCurrent (s : UndoRedoState T) : Option T :=
  s.history.get? s.currentIndex

/-- The value returned by `undo(steps)`: the entry at the new index. -/
def urUndoValue (steps : Nat) (s : UndoRedoState T) : Option T :=
  urCurrent (urUndoState steps s)

/-- The state effect of `redo(steps)` (lines 30-33):
`currentIndex = Math.min(history.length - 1, currentIndex + steps)`. -/
def urRedoState (steps : Nat) (s : UndoRedoState T) : UndoRedoState T :=
  { s with currentIndex := min (s.history.length - 1) (s.currentIndex + steps) }

/-- The value returned by `redo(steps)`. -/
def urRedoValue (steps : Nat) (s : UndoRedoState T) : Option T :=
  urCurrent (urRedoState steps s)

/-- `canUndo(steps) = currentIndex >= steps` (line 35). -/
def urCanUndo (steps : Nat) (s : UndoRedoState T) : Bool :=
  steps ≤ s.currentIndex

/-- `canRedo(steps) = currentIndex + steps < history.length` (line 36). -/
def urCanRedo (steps : Nat) (s : UndoRedoState T) : Bool :=
  s.currentIndex + steps < s.history.length

/-- The history-manager invariant stated by the specification:
`0 <= currentIndex < history.length <= maxHistorySize` (the lower bound
is inherent to `Nat`). -/
def urInv (maxHistorySize : Nat) (s : UndoRedoState T) : Prop :=
  s.currentIndex < s.history.length ∧ s.history.length ≤ maxHistorySize

/-- One manager operation: a recorded write, an undo or a redo. -/
inductive UrOp (T : Type _) where
  | record (newState : T)
  | undo (steps : Nat)
  | redo (steps : Nat)

/-- The state effect of one operation. -/
def urApply (maxHistorySize : Nat) : UrOp T → UndoRedoState T → UndoRedoState T
  | .record t, s => urSetState maxHistorySize t s
  | .undo n, s => urUndoState n s
  | .redo n, s => urRedoState n s

/-- Run a sequence of manager operations left to right. -/
def urRun (maxHistorySize : Nat) (ops : List (UrOp T)) (s : UndoRedoState T) :
    UndoRedoState T :=
  ops.foldl (fun acc op => urApply maxHistorySize op acc) s

/-! ## Form status as a JS object

`formStatus` is a signal holding a plain JS object.  The engine updates
it with spreads of the form `setFormStatus(prev => ({ ...prev, key: b }))`;
when `key` is not one of the object's existing keys the spread *adds* a
new property instead of changing an existing one, so the update is
modelled on an ordered association list of boolean-valued properties.
-/

abbrev StatusObj := List (String × Bool)

/-- Read one boolean property of the status object. -/
def statusGet (o : StatusObj) (key : String) : Option Bool :=
  o.lookup key

/-- The spread update `{ ...prev, key: b }`: overwrite an existing key in
place, append a fresh one. -/
def statusSet : StatusObj → String → Bool → StatusObj
  | [], key, b => [(key, b)]
  | (k, w) :: fs, key, b =>
    if k = key then (key, b) :: fs else (k, w) :: statusSet fs key b

/-- The initial `FormStatus` object (src/unnamed/part_000, lines 122-128):
all five flags false. -/
def initialFormStatus : StatusObj :=
  [("initializing", false), ("submitting", false), ("validating", false),
   ("settingState", false), ("settingMeta", false)]

/-- The status update performed on entry to `setState`
(src/unnamed/part_000, line 160): the key written is the literal
`isSettingState`, not the `FormStatus` field `settingState`. -/
def setStateStatusEntry (prev : StatusObj) : StatusObj :=
  statusSet prev "isSettingState" true

/-- The status update performed in the `finally` block of `setState`
(src/unnamed/part_000, line 170). -/
def setStateStatusExit (prev : StatusObj) : StatusObj :=
  statusSet prev "isSettingState" false

/-! ## Submit

`submit` (src/unnamed/part_000, lines 186-196): revalidate, return
silently when validation fails, otherwise set `submitting`, invoke the
caller's `onSubmit` with the coerced data, and clear `submitting` in a
`finally` block.  The schema is abstracted as a function from states to
validation results; the handler may fail (`Except`).
-/

inductive VResult (Data : Type _) where
  | success (data : Data)
  | failure (fieldErrors : List (String × List String)) (formErrors : List String)

/-- Everything observable about one `submit` call: the arguments the
handler was invoked with (in order), the outcome propagated to the
caller, and the `submitting` flag read back after completion. -/
structure SubmitTrace (Data E : Type _) where
  handlerCalls : List Data
  outcome : Except E Unit
  submittingAfter : Bool

/-- The observable behaviour of `submit` on a state `st`:
`const validationResult = await revalidate(); if (!validationResult.success) return;`
then `submitting = true; await props.onSubmit(validationResult.data)`
with `submitting = false` in a `finally`. -/
def submitModel (validate : S → VResult Data) (onSubmit : Data → Except E Unit)
    (st : S) : SubmitTrace Data E :=
  match validate st with
  | .failure _ _ => ⟨[], .ok (), false⟩
  | .success d => ⟨[d], onSubmit d, false⟩

/-! ## Array-field operations

`useArrayField` (src/unnamed/part_000, lines 353-439).  Each operation
is one `setValue` call carrying an array-producing function applied to
the previous value; the functions below are those producers, after the
index/item initializers have been resolved.  Indices are `Nat` (the
operations are specified and exercised on non-negative indices).
-/

/-- `Array.prototype.splice(start, deleteCount)` for non-negative
arguments: the remaining array paired with the removed slice (`start`
past the end removes nothing, as in JS). -/
def jsSpliceRemove (l : List α) (start deleteCount : Nat) : List α × List α :=
  (l.take start ++ l.drop (start + deleteCount), (l.drop start).take deleteCount)

/-- `Array.prototype.splice(start, 0, items...)` for non-negative
`start` (clamped to the length, as in JS). -/
def jsSpliceInsert (l : List α) (start : Nat) (items : List α) : List α :=
  l.take start ++ items ++ l.drop start

/-- `push(item)`: `prev => [...prev, item]`. -/
def arrayPush (item : α) (prev : List α) : List α :=
  prev ++ [item]

/-- `remove(index)`: `prev => prev.filter((_, i) => i !== index)`. -/
def arrayRemove (index : Nat) (prev : List α) : List α :=
  (prev.enum.filter (fun p => p.1 ≠ index)).map Prod.snd

/-- `move(from, to)`: copy, `splice(from, 1)` out the element, then
`splice(to, 0, removed)` it back in.  When `from` is out of range JS
would re-insert `undefined`; a typed element model cannot represent
that, and no engine property depends on it. -/
def arrayMove (start target : Nat) (prev : List α) : List α :=
  let r := jsSpliceRemove prev start 1
  match r.2 with
  | [removed] => jsSpliceInsert r.1 target [removed]
  | _ => jsSpliceInsert r.1 target []

/-- `insert(index, item)`: copy then `splice(index, 0, item)`. -/
def arrayInsert (index : Nat) (item : α) (prev : List α) : List α :=
  jsSpliceInsert prev index [item]

/-- `replace(index, item)`: copy then `newArray[index] = item`.  An
out-of-range index would pad with `undefined` in JS, unrepresentable in
a typed element model and outside every specified property. -/
def arrayReplace (index : Nat) (item : α) (prev : List α) : List α :=
  prev.set index item

/-- `swap(indexA, indexB)`: exchange the two elements through a
temporary.  Out-of-range indices would traffic in `undefined` (same
caveat as `replace`). -/
def arraySwap (indexA indexB : Nat) (prev : List α) : List α :=
  match prev.get? indexA, prev.get? indexB with
  | some va, some vb => (prev.set indexA vb).set indexB va
  | _, _ => prev

/-- `empty()`: `setValue([])`. -/
def arrayEmpty (_prev : List α) : List α :=
  []

/-! ## Engine-level operations -/

/-- The engine state components relevant to the path/history claims: the
heap of live containers, the `state` signal's current value, and the
undo/redo manager's closure state (whose entries are roots into the
same heap — `setState` records the very object it stores in the
signal). -/
structure EngineState where
  heap : Heap
  formState : JVal
  manager : UndoRedoState JVal

/-- The state/history effect of `setFieldValue(path, update)`
(src/unnamed/part_000, lines 237-249) for an already-resolved update
value: read the current state, and — when it is truthy — apply the path
resolver's `set` to the live state object and hand the returned root to
`setState`, which stores it in the signal and records it into history
(validation and the per-path status flag do not touch state, heap or
history and are omitted here; the status flag is covered separately). -/
def setFieldValueModel (maxHistorySize : Nat) (e : EngineState) (path : String)
    (value : JVal) : Except Unit EngineState :=
  if jsFalsy e.formState then .ok e
  else
    match setJs e.heap e.formState path value with
    | .error err => .error err
    | .ok (h', root) =>
      .ok { heap := h', formState := root
            manager := urSetState maxHistorySize root e.manager }

/-- The history effect of the engine's `undo(steps)`
(src/unnamed/part_000, lines 198-204): ask the manager to step back,
then feed the retrieved snapshot through `setState`, whose manager
effect is a fresh `record` of that snapshot.  Under the manager
invariant the retrieved entry always exists; the `none` branch is
unreachable. -/
def engineUndo (maxHistorySize steps : Nat) (s : UndoRedoState T) :
    UndoRedoState T :=
  match urCurrent (urUndoState steps s) with
  | some previousState => urSetState maxHistorySize previousState (urUndoState steps s)
  | none => urUndoState steps s

/-- The early-return guard of `useField`'s `reset`
(src/unnamed/part_000, lines 322-326): read the initial value at the
field's path; `if (!initialValue) return;` otherwise call
`setFieldValue(path, initialValue)`.  `.ok none` is the early return
(no `setFieldValue` call), `.ok (some v)` the delegation with payload
`v`; a fault of `get` propagates. -/
def fieldReset (h : Heap) (initialState : JVal) (path : String) :
    Except Unit (Option JVal) :=
  match getJs h initialState path with
  | .error e => .error e
  | .ok v => if jsFalsy v then .ok none else .ok (some v)

/-- A small initialized engine: state `{ name: "a" }` at address 0, the
`state` signal and the single recorded history entry both referencing
that object — exactly what `initializeState` produces
(`setStateInternal(result)` and `createUndoRedoManager(result)` share
one object). -/
def engine0 : EngineState :=
  { heap := [JObj.obj [("name", JVal.str "a")]]
    formState := JVal.ref 0
    manager := urCreate (JVal.ref 0) }

/-! ## Helper lemmas -/

theorem statusGet_statusSet_ne (o : StatusObj) (k k' : String) (b : Bool)
    (h : k ≠ k') : statusGet (statusSet o k b) k' = statusGet o k' := by
  have hbeq : (k' == k) = false := by
    simp only [beq_eq_false_iff_ne]
    exact h.symm
  induction o with
  | nil => simp [statusSet, statusGet, List.lookup, hbeq]
  | cons p t ih =>
    obtain ⟨pk, pb⟩ := p
    by_cases hpk : pk = k
    · subst hpk
      simp [statusSet, statusGet, List.lookup, hbeq]
    · simp only [statusSet, if_neg hpk, statusGet, List.lookup]
      cases hb : (k' == pk)
      · exact ih
      · rfl

theorem getPath_of_walkAddrs (h : Heap) (v : JVal) (ks : List String)
    (as : List Nat) (w : JVal) (hw : walkAddrs h v ks = .ok (as, w)) :
    getPath h v ks = .ok w := by
  induction ks generalizing v as with
  | nil =>
    simp only [walkAddrs, Except.ok.injEq, Prod.mk.injEq] at hw
    rw [getPath, hw.2]
  | cons k ks ih =>
    cases v
    case ref a =>
      cases hacc : access h (.ref a) k with
      | error e => simp [walkAddrs, hacc] at hw
      | ok v' =>
        cases hrec : walkAddrs h v' ks with
        | error e => simp [walkAddrs, hacc, hrec] at hw
        | ok p =>
          obtain ⟨as', w'⟩ := p
          simp only [walkAddrs, hacc, hrec, Except.ok.injEq, Prod.mk.injEq] at hw
          obtain ⟨has, hwv⟩ := hw
          subst hwv
          simp only [getPath, hacc]
          exact ih v' as' hrec
    all_goals simp [walkAddrs] at hw

theorem access_set_ne (h : Heap) (t : Nat) (o : JObj) (a : Nat) (key : String)
    (hne : a ≠ t) :
    access (h.set t o) (.ref a) key = access h (.ref a) key := by
  simp only [access, List.get?_set_ne o h (Ne.symm hne)]

theorem walkAddrs_set (h : Heap) (t : Nat) (o : JObj) (v : JVal)
    (ks : List String) (as : List Nat) (w : JVal)
    (hw : walkAddrs h v ks = .ok (as, w)) (ht : t ∉ as) :
    walkAddrs (h.set t o) v ks = .ok (as, w) := by
  induction ks generalizing v as with
  | nil => simpa only [walkAddrs] using hw
  | cons k ks ih =>
    cases v
    case ref a =>
      cases hacc : access h (.ref a) k with
      | error e => simp [walkAddrs, hacc] at hw
      | ok v' =>
        cases hrec : walkAddrs h v' ks with
        | error e => simp [walkAddrs, hacc, hrec] at hw
        | ok p =>
          obtain ⟨as', w'⟩ := p
          simp only [walkAddrs, hacc, hrec, Except.ok.injEq, Prod.mk.injEq] at hw
          obtain ⟨has, hwv⟩ := hw
          subst has hwv
          have hat : a ≠ t := fun hh => ht (by simp [hh])
          have hts : t ∉ as' := fun hh => ht (List.mem_cons_of_mem _ hh)
          simp only [walkAddrs, access_set_ne h t o a k hat, hacc,
            ih v' as' hrec hts]
    all_goals simp [walkAddrs] at hw

theorem getPath_append (h : Heap) (v : JVal) (ks ks' : List String) :
    getPath h v (ks ++ ks') =
      match getPath h v ks with
      | .ok w => getPath h w ks'
      | .error e => .error e := by
  induction ks generalizing v with
  | nil => rw [List.nil_append, getPath]
  | cons k ks ih =>
    rw [List.cons_append, getPath, getPath]
    cases access h v k
    · rfl
    · exact ih _

theorem objGet_objSet_self (fs : List (String × JVal)) (k : String) (v : JVal) :
    objGet (objSet fs k v) k = v := by
  induction fs with
  | nil => simp [objSet, objGet, List.lookup]
  | cons p fs ih =>
    obtain ⟨pk, pv⟩ := p
    by_cases hpk : pk = k
    · subst hpk
      simp [objSet, objGet, List.lookup]
    · have hbeq : (k == pk) = false := beq_eq_false_iff_ne.mpr (Ne.symm hpk)
      simpa [objSet, hpk, objGet, List.lookup, hbeq] using ih

theorem arrGet_arrSet_self (l : List JVal) (i : Nat) (v : JVal) :
    arrGet (arrSet l i v) i = v := by
  by_cases hi : i < l.length
  · simp [arrSet, hi, arrGet, List.get?_set_eq_of_lt _ hi]
  · push_neg at hi
    have hlen : (l ++ List.replicate (i - l.length) JVal.undefined).length = i := by
      simp only [List.length_append, List.length_replicate]
      omega
    rw [arrSet, if_neg (by omega), arrGet,
      List.get?_append_right (le_of_eq hlen), hlen]
    simp

/-! ## Claim theorems -/

/-- C1: the claim reads "applying the Path Resolver's set (as
setFieldValue does) leaves every previously recorded HistoryEntry
value-equal to what it was before the call"; the code violates it.  On
an engine whose single recorded history entry is the object at address
0 holding `{ name: "a" }`, `setFieldValue("name", "b")` applies `set`
to the live state object without cloning, so the very object recorded
in history is mutated: reading `name` through the recorded entry yields
`"a"` before the call and `"b"` after it. -/
theorem c1_set_mutates_recorded_history :
    engine0.manager.history.get? 0 = some (JVal.ref 0) ∧
    getJs engine0.heap (JVal.ref 0) "name" = .ok (JVal.str "a") ∧
    (setFieldValueModel 350 engine0 "name" (JVal.str "b")).map
      (fun e' => getJs e'.heap (JVal.ref 0) "name") = .ok (.ok (JVal.str "b")) :=
  ⟨rfl, rfl, rfl⟩

/-- C2: the claim reads "get never throws: when an intermediate value
along the path is null or absent with segments remaining, get yields
undefined"; the code refutes it.  `get` performs a raw `result[key]`
read, so a `null` intermediate (state `{ a: null }`, path `"a.b"`) and
a `null` root (the form state before initialization, any path) both
throw a TypeError instead of yielding `undefined`. -/
theorem c2_get_throws_on_null_intermediate :
    getJs [JObj.obj [("a", JVal.null)]] (JVal.ref 0) "a.b" = .error () ∧
    getJs [] JVal.null "name" = .error () :=
  ⟨rfl, rfl⟩

/-- C3: the claim reads "setState sets the FormStatus field settingState
to true at entry and back to false on every exit"; the code refutes it.
The update at entry writes the key `isSettingState` — a key that is not
a `FormStatus` field — so the spread adds a fresh property and
`formStatus().settingState` stays `false` during the whole in-flight
interval, for every prior status object. -/
theorem c3_settingState_flag_never_raised :
    (∀ prev : StatusObj,
      statusGet (setStateStatusEntry prev) "settingState"
        = statusGet prev "settingState") ∧
    statusGet (setStateStatusEntry initialFormStatus) "settingState"
      = some false ∧
    statusGet (setStateStatusEntry initialFormStatus) "isSettingState"
      = some true :=
  ⟨fun prev => statusGet_statusSet_ne prev "isSettingState" "settingState" true
      (by decide),
    rfl, rfl⟩

/-- C5: at the history-manager level, after creating the manager on `S0`
and recording `S1` (with the default limit 350), `undo()` returns `S0`,
and `redo()` after that undo returns `S1`; moreover `undo` with the
index already at 0 is a no-op returning the current entry rather than
an error. -/
theorem c5_undo_redo_inverse (T : Type) (S0 S1 : T) :
    urUndoValue 1 (urSetState 350 S1 (urCreate S0)) = some S0 ∧
    urRedoValue 1 (urUndoState 1 (urSetState 350 S1 (urCreate S0))) = some S1 ∧
    (∀ s : UndoRedoState T, s.currentIndex = 0 →
      urUndoState 1 s = s ∧ urUndoValue 1 s = urCurrent s) := by
  refine ⟨rfl, rfl, fun s hs => ?_⟩
  have hstate : urUndoState 1 s = s := by
    cases s
    simp_all [urUndoState]
  exact ⟨hstate, by rw [urUndoValue, hstate]⟩

/-- C5 witness: the inverse law and the no-op law at concrete inputs. -/
theorem c5_undo_redo_inverse_holds :
    urUndoValue 1 (urSetState 350 7 (urCreate 3)) = some 3 ∧
    urUndoState 1 (⟨[5], 0⟩ : UndoRedoState Nat) = ⟨[5], 0⟩ := by
  refine ⟨(c5_undo_redo_inverse Nat 3 7).1, ?_⟩
  exact ((c5_undo_redo_inverse Nat 3 7).2.2 ⟨[5], 0⟩ rfl).1

/-- C8: the seven array-field operations, applied to the array value
`["item1", "item2", "item3"]`, produce exactly the sequences stated in
the specification. -/
theorem c8_array_operations :
    arrayPush "x" ["item1", "item2", "item3"]
      = ["item1", "item2", "item3", "x"] ∧
    arrayRemove 1 ["item1", "item2", "item3"] = ["item1", "item3"] ∧
    arrayMove 0 2 ["item1", "item2", "item3"]
      = ["item2", "item3", "item1"] ∧
    arraySwap 0 2 ["item1", "item2", "item3"]
      = ["item3", "item2", "item1"] ∧
    arrayInsert 1 "y" ["item1", "item2", "item3"]
      = ["item1", "y", "item2", "item3"] ∧
    arrayReplace 0 "z" ["item1", "item2", "item3"]
      = ["z", "item2", "item3"] ∧
    arrayEmpty ["item1", "item2", "item3"] = ([] : List String) :=
  ⟨rfl, rfl, rfl, rfl, rfl, rfl, rfl⟩

theorem length_jsSliceLast (k : Nat) (l : List α) :
    (jsSliceLast k l).length = if k = 0 then l.length else min k l.length := by
  by_cases hk : k = 0
  · simp [jsSliceLast, hk]
  · simp [jsSliceLast, hk]
    omega

theorem urInv_setState (maxH : Nat) (hm : 1 ≤ maxH) (t : T)
    (s : UndoRedoState T) (h : urInv maxH s) :
    urInv maxH (urSetState maxH t s) := by
  obtain ⟨h1, h2⟩ := h
  have hk : ¬maxH = 0 := by omega
  constructor
  · simp only [urSetState, length_jsSliceLast, if_neg hk, List.length_append,
      List.length_take, List.length_singleton]
    omega
  · simp only [urSetState, length_jsSliceLast, if_neg hk]
    omega

theorem urInv_undoState (maxH steps : Nat) (s : UndoRedoState T)
    (h : urInv maxH s) : urInv maxH (urUndoState steps s) := by
  obtain ⟨h1, h2⟩ := h
  exact ⟨by simp only [urUndoState]; omega, h2⟩

theorem urInv_redoState (maxH steps : Nat) (s : UndoRedoState T)
    (h : urInv maxH s) : urInv maxH (urRedoState steps s) := by
  obtain ⟨h1, h2⟩ := h
  exact ⟨by simp only [urRedoState]; omega, h2⟩

theorem urInv_run (maxH : Nat) (hm : 1 ≤ maxH) (ops : List (UrOp T))
    (s : UndoRedoState T) (h : urInv maxH s) :
    urInv maxH (urRun maxH ops s) := by
  induction ops generalizing s with
  | nil => exact h
  | cons op rest ih =>
    have hstep : urInv maxH (urApply maxH op s) := by
      cases op with
      | record t => exact urInv_setState maxH hm t s h
      | undo n => exact urInv_undoState maxH n s h
      | redo n => exact urInv_redoState maxH n s h
    simpa only [urRun, List.foldl_cons] using ih (urApply maxH op s) hstep

/-- C4: for every sequence of record/undo/redo operations on a manager
created with `createUndoRedoManager(initial, limit)` where `limit >= 1`,
the invariant `0 <= currentIndex < history.length <= limit` holds (the
lower bounds are inherent to `Nat`), and the history always contains at
least one entry. -/
theorem c4_history_bounds (T : Type) (maxH : Nat) (hm : 1 ≤ maxH) (s0 : T)
    (ops : List (UrOp T)) :
    urInv maxH (urRun maxH ops (urCreate s0)) ∧
    1 ≤ (urRun maxH ops (urCreate s0)).history.length := by
  have hbase : urInv maxH (urCreate s0) :=
    ⟨by simp [urCreate], by simpa [urCreate] using hm⟩
  have h := urInv_run maxH hm ops (urCreate s0) hbase
  exact ⟨h, by have := h.1; omega⟩

/-- C4 witness: the invariant after a concrete record/undo/redo/record
sequence on a manager with limit 2. -/
theorem c4_history_bounds_holds :
    1 ≤ 2 ∧
    (urInv 2 (urRun 2 [UrOp.record 5, UrOp.undo 1, UrOp.record 6,
        UrOp.redo 1] (urCreate (0 : Nat))) ∧
      1 ≤ (urRun 2 [UrOp.record 5, UrOp.undo 1, UrOp.record 6,
        UrOp.redo 1] (urCreate (0 : Nat))).history.length) :=
  ⟨by decide,
    c4_history_bounds Nat 2 (by decide) 0
      [UrOp.record 5, UrOp.undo 1, UrOp.record 6, UrOp.redo 1]⟩

/-- C9: after the engine-level `undo` — which asks the manager to step
back and then pushes the retrieved snapshot through `setState`, i.e.
through a fresh manager `record` — `canRedo()` is false: the re-record
truncates everything beyond the new index, so the entry appended by the
undo itself is the last one. -/
theorem c9_engine_undo_clears_redo (T : Type) (maxH steps : Nat)
    (s : UndoRedoState T) (hm : 1 ≤ maxH) (h : urInv maxH s) :
    urCanRedo 1 (engineUndo maxH steps s) = false := by
  obtain ⟨h1, h2⟩ := h
  have hci : s.currentIndex - steps < s.history.length := by omega
  have hcur : urCurrent (urUndoState steps s)
      = some (s.history.get ⟨s.currentIndex - steps, hci⟩) := by
    simp [urCurrent, urUndoState, List.get?_eq_get hci]
  have hk : ¬maxH = 0 := by omega
  unfold engineUndo
  rw [hcur]
  simp only [urCanRedo, urSetState, urUndoState, length_jsSliceLast,
    if_neg hk, List.length_append, List.length_take, List.length_singleton,
    decide_eq_false_iff_not, not_lt]
  omega

/-- C9 witness: a manager holding `[0, 5]` at index 1 (limit 350), after
the engine-level undo, reports `canRedo() = false`. -/
theorem c9_engine_undo_clears_redo_holds :
    (1 ≤ 350 ∧ urInv 350 (⟨[0, 5], 1⟩ : UndoRedoState Nat)) ∧
    urCanRedo 1 (engineUndo 350 1 (⟨[0, 5], 1⟩ : UndoRedoState Nat)) = false :=
  ⟨⟨by decide, ⟨by decide, by decide⟩⟩,
    c9_engine_undo_clears_redo Nat 350 1 ⟨[0, 5], 1⟩ (by decide)
      ⟨by decide, by decide⟩⟩

/-- C7: `submit` invokes the caller-supplied handler exactly when
validation of the current state succeeds, passing it the validated,
schema-coerced data carried by the success result; when validation
fails, `submit` returns without raising an error and without invoking
the handler (and when the handler itself fails, that failure is what
`submit` propagates). -/
theorem c7_submit_iff_valid (S Data E : Type) (validate : S → VResult Data)
    (onSubmit : Data → Except E Unit) (st : S) :
    (∀ d, validate st = .success d →
      (submitModel validate onSubmit st).handlerCalls = [d] ∧
      (submitModel validate onSubmit st).outcome = onSubmit d) ∧
    (∀ fe ge, validate st = .failure fe ge →
      (submitModel validate onSubmit st).handlerCalls = [] ∧
      (submitModel validate onSubmit st).outcome = .ok ()) ∧
    ((submitModel validate onSubmit st).handlerCalls ≠ [] ↔
      ∃ d, validate st = .success d) := by
  cases hv : validate st <;> simp [submitModel, hv]

/-- C7 witness: a schema requiring the number to be at least 18 — the
valid state 25 reaches the handler with exactly the coerced data, the
invalid state 10 is a silent no-op. -/
theorem c7_submit_iff_valid_holds :
    ((submitModel
        (fun n => if 18 ≤ n then VResult.success n
          else VResult.failure [("age", ["too small"])] [])
        (fun _ => (Except.ok () : Except Unit Unit)) 25).handlerCalls
      = [25] ∧
     (submitModel
        (fun n => if 18 ≤ n then VResult.success n
          else VResult.failure [("age", ["too small"])] [])
        (fun _ => (Except.ok () : Except Unit Unit)) 10).handlerCalls
      = []) :=
  ⟨((c7_submit_iff_valid Nat Nat Unit
      (fun n => if 18 ≤ n then VResult.success n
        else VResult.failure [("age", ["too small"])] [])
      (fun _ => Except.ok ()) 25).1 25 rfl).1,
   ((c7_submit_iff_valid Nat Nat Unit
      (fun n => if 18 ≤ n then VResult.success n
        else VResult.failure [("age", ["too small"])] [])
      (fun _ => Except.ok ()) 10).2.1 [("age", ["too small"])] [] rfl).1⟩

/-- C6: the path round-trip law `get(set(root, p, v), p) == v` for every
root and every valid non-empty path.  Validity is spelled out exactly as
the claim's parenthetical demands — the intermediate containers all
exist in the root: the leading segments resolve through heap references
(`walkAddrs` succeeds), the final container exists (`h.get? t = some o`)
and accepts the final segment (`compatKey`), and, since the
specification's data model restricts form state to an object/array
*tree*, the written container is not also one of the intermediate nodes
(`t ∉ addrs` — without it an aliased/cyclic root genuinely breaks the
law, but such a root is outside the specified state space). -/
theorem c6_get_set_roundtrip (h : Heap) (root value : JVal) (path : String)
    (keys : List String) (lastKey : String) (addrs : List Nat) (t : Nat)
    (o : JObj) (hp : path ≠ "")
    (hsplit : jsSplit path = keys ++ [lastKey])
    (hwalk : walkAddrs h root keys = .ok (addrs, .ref t))
    (hobj : h.get? t = some o)
    (hcompat : compatKey o lastKey = true)
    (hnoalias : t ∉ addrs) :
    ∃ h', setJs h root path value = .ok (h', root) ∧
      getJs h' root path = .ok value := by
  obtain ⟨hlt, -⟩ := List.get?_eq_some.mp hobj
  have hget1 : getPath h root keys = .ok (.ref t) :=
    getPath_of_walkAddrs h root keys addrs (.ref t) hwalk
  cases o with
  | obj fields =>
    refine ⟨h.set t (.obj (objSet fields lastKey value)), ?_, ?_⟩
    · simp only [setJs, if_neg hp, hsplit, List.getLast?_concat,
        List.dropLast_concat, hget1, assign, hobj]
    · have hwalk' : walkAddrs (h.set t (.obj (objSet fields lastKey value)))
          root keys = .ok (addrs, .ref t) :=
        walkAddrs_set h t _ root keys addrs (.ref t) hwalk hnoalias
      have hget2 : getPath (h.set t (.obj (objSet fields lastKey value)))
          root keys = .ok (.ref t) :=
        getPath_of_walkAddrs _ root keys addrs (.ref t) hwalk'
      simp only [getJs, hsplit, getPath_append, hget2, getPath, access,
        List.get?_set_eq_of_lt _ hlt, objGet_objSet_self]
  | arr elems =>
    have hidx : isIndexKey lastKey = true := hcompat
    refine ⟨h.set t (.arr (arrSet elems (parseIndex lastKey) value)), ?_, ?_⟩
    · simp only [setJs, if_neg hp, hsplit, List.getLast?_concat,
        List.dropLast_concat, hget1, assign, hobj, hidx, if_true]
    · have hwalk' : walkAddrs
          (h.set t (.arr (arrSet elems (parseIndex lastKey) value)))
          root keys = .ok (addrs, .ref t) :=
        walkAddrs_set h t _ root keys addrs (.ref t) hwalk hnoalias
      have hget2 : getPath
          (h.set t (.arr (arrSet elems (parseIndex lastKey) value)))
          root keys = .ok (.ref t) :=
        getPath_of_walkAddrs _ root keys addrs (.ref t) hwalk'
      simp only [getJs, hsplit, getPath_append, hget2, getPath, access,
        List.get?_set_eq_of_lt _ hlt, hidx, if_true, arrGet_arrSet_self]

/-- C6 witness: root `{ user: { name: "old" } }` (two heap cells), the
valid path `"user.name"`, written value `"new"`. -/
theorem c6_get_set_roundtrip_holds :
    (("user.name" : String) ≠ "" ∧
      jsSplit "user.name" = ["user"] ++ ["name"] ∧
      walkAddrs [JObj.obj [("user", JVal.ref 1)],
          JObj.obj [("name", JVal.str "old")]] (JVal.ref 0) ["user"]
        = .ok ([0], .ref 1) ∧
      ([JObj.obj [("user", JVal.ref 1)],
          JObj.obj [("name", JVal.str "old")]] : Heap).get? 1
        = some (JObj.obj [("name", JVal.str "old")]) ∧
      compatKey (JObj.obj [("name", JVal.str "old")]) "name" = true ∧
      (1 : Nat) ∉ ([0] : List Nat)) ∧
    ∃ h', setJs [JObj.obj [("user", JVal.ref 1)],
          JObj.obj [("name", JVal.str "old")]] (JVal.ref 0) "user.name"
          (JVal.str "new") = .ok (h', JVal.ref 0) ∧
      getJs h' (JVal.ref 0) "user.name" = .ok (JVal.str "new") :=
  ⟨⟨by decide, rfl, rfl, rfl, rfl, by decide⟩,
    c6_get_set_roundtrip
      [JObj.obj [("user", JVal.ref 1)], JObj.obj [("name", JVal.str "old")]]
      (JVal.ref 0) (JVal.str "new") "user.name" ["user"] "name" [0] 1
      (JObj.obj [("name", JVal.str "old")]) (by decide) rfl rfl rfl rfl
      (by decide)⟩

/-- C10: whenever the value of a path in the initial state is falsy
(`0`, `""`, `false`, `null`, `undefined`), the field-level `reset`
returned by `useField` hits the `if (!initialValue) return;` guard and
returns without calling `setFieldValue`, leaving the form state
untouched. -/
theorem c10_reset_noop_on_falsy (h : Heap) (initState : JVal) (path : String)
    (v : JVal) (hget : getJs h initState path = .ok v)
    (hfalsy : jsFalsy v = true) :
    fieldReset h initState path = .ok none := by
  simp [fieldReset, hget, hfalsy]

/-- C10 witness: initial state `{ age: 0 }`, path `"age"` — the initial
value `0` is falsy and `reset` is the early return. -/
theorem c10_reset_noop_on_falsy_holds :
    (getJs [JObj.obj [("age", JVal.num 0)]] (JVal.ref 0) "age"
        = .ok (JVal.num 0) ∧
      jsFalsy (JVal.num 0) = true) ∧
    fieldReset [JObj.obj [("age", JVal.num 0)]] (JVal.ref 0) "age"
      = .ok none :=
  ⟨⟨rfl, rfl⟩,
    c10_reset_noop_on_falsy [JObj.obj [("age", JVal.num 0)]] (JVal.ref 0)
      "age" (JVal.num 0) rfl rfl⟩

end Formix
